import Mathlib

/-!
Verification of the TetrisPy board/piece simulation engine
(`src/main.py` of the repository) against its specification.

The Python source is shallowly embedded: the mutable game objects become
explicit state records, the `while` loops of `check_rows` and
`calculate_y` become fuel-indexed recursions (the fuel strictly exceeds
the number of iterations the loops can perform on the 20-row board, see
the comments at each definition), and the outcome of `random.shuffle`
becomes an explicit stream of permutations threaded through the bag
state.  Machine floats in the gravity formula are modelled by exact
rationals.  Board cells are strings in the source; only three string
shapes ever occur (`" "`, `color + "███" + END`, `color + BOLD + "[ ]" +
END`), modelled by the three constructors of `Cell`; the substring test
`FILL_CHAR in cell` becomes `isFilled`.
-/

namespace TetrisPy

/-- The 7 tetromino kinds; the source uses the strings
"I","O","T","S","Z","J","L". -/
inductive Kind where
  | I | O | T | S | Z | J | L
deriving DecidableEq, Repr, Inhabited

/-- A board cell.  In the source a cell is a string: `" "` (empty),
`color + FILL_CHAR + END` (a settled or active block, the color encodes
the kind), or `color + BOLD + "[ ]" + END` (the ghost-piece preview).
`FILL_CHAR in cell` holds exactly for the middle shape. -/
inductive Cell where
  | space
  | filled (k : Kind)
  | ghost (k : Kind)
deriving DecidableEq, Repr

/-- Embeds the Python test `FILL_CHAR in cell`. -/
def isFilled : Cell → Bool
  | .filled _ => true
  | _ => false

/-- Embeds `BOARD_X = 10` in the source. -/
def BOARD_X : ℕ := 10

/-- Embeds `BOARD_Y = 20` in the source. -/
def BOARD_Y : ℕ := 20

/-- Embeds `I_PIECE = [(1, 0), (1, 1), (1, 2), (1, 3)]`. -/
def I_PIECE : List (ℤ × ℤ) := [(1, 0), (1, 1), (1, 2), (1, 3)]

/-- Embeds `O_PIECE = [(0, 0), (0, 1), (1, 0), (1, 1)]`. -/
def O_PIECE : List (ℤ × ℤ) := [(0, 0), (0, 1), (1, 0), (1, 1)]

/-- Embeds `T_PIECE = [(1, 0), (0, 1), (1, 1), (1, 2)]`. -/
def T_PIECE : List (ℤ × ℤ) := [(1, 0), (0, 1), (1, 1), (1, 2)]

/-- Embeds `S_PIECE = [(1, 0), (1, 1), (0, 1), (0, 2)]`. -/
def S_PIECE : List (ℤ × ℤ) := [(1, 0), (1, 1), (0, 1), (0, 2)]

/-- Embeds `Z_PIECE = [(0, 0), (1, 1), (0, 1), (1, 2)]`. -/
def Z_PIECE : List (ℤ × ℤ) := [(0, 0), (1, 1), (0, 1), (1, 2)]

/-- Embeds `J_PIECE = [(0, 0), (1, 0), (1, 1), (1, 2)]`. -/
def J_PIECE : List (ℤ × ℤ) := [(0, 0), (1, 0), (1, 1), (1, 2)]

/-- Embeds `L_PIECE = [(1, 0), (1, 1), (1, 2), (0, 2)]`. -/
def L_PIECE : List (ℤ × ℤ) := [(1, 0), (1, 1), (1, 2), (0, 2)]

/-- The shape-table dictionary used in `Tetromino.__init__`. -/
def pieceCells : Kind → List (ℤ × ℤ)
  | .I => I_PIECE
  | .O => O_PIECE
  | .T => T_PIECE
  | .S => S_PIECE
  | .Z => Z_PIECE
  | .J => J_PIECE
  | .L => L_PIECE

/-- Embeds `Tetromino.get_size`: `{"I": 4, "Z": 3, "S": 3, "T": 3, "L": 3,
"J": 3, "O": 2}[shape]`. -/
def pieceSize : Kind → ℕ
  | .I => 4
  | .Z => 3
  | .S => 3
  | .T => 3
  | .L => 3
  | .J => 3
  | .O => 2

/-!
## TetriminoBag

`random.shuffle` is modelled by a stream `shuffles : ℕ → List Kind` of
pre-chosen shuffle outcomes together with a counter `idx`; a refill
installs `shuffles idx` and advances the counter.  Theorems that depend
on the shuffle's behavior hypothesise that the consulted outcome is a
permutation of the full 7-kind list, which is exactly what
`random.shuffle` of that list guarantees.
-/
/-- The literal `["I", "O", "T", "S", "Z", "J", "L"]` used for refills. -/
def fullBag : List Kind := [.I, .O, .T, .S, .Z, .J, .L]

/-- State of `TetriminoBag`, plus the prophecy of future shuffle
outcomes. -/
structure TetriminoBag where
  bag : List Kind
  shuffles : ℕ → List Kind
  idx : ℕ

/-- Embeds `TetriminoBag.next_piece`: refill (with a shuffled full set) if the
bag is empty, then `self.bag.pop()` — remove and return the last
element.  Python raises `IndexError` when popping an empty list; that is
unreachable because shuffle outcomes are permutations of the nonempty
`fullBag`, so the `getLastD` default never surfaces under the theorems'
hypotheses. -/
def next_piece (b : TetriminoBag) : Kind × TetriminoBag :=
  let (bg, i) := if b.bag.isEmpty then (b.shuffles b.idx, b.idx + 1) else (b.bag, b.idx)
  (bg.getLastD .I, ⟨bg.dropLast, b.shuffles, i⟩)

/-- Embeds `TetriminoBag.peek`: same refill-if-empty step, then `self.bag[-1]`
— return the last element without removing it. -/
def peek (b : TetriminoBag) : Kind × TetriminoBag :=
  let (bg, i) := if b.bag.isEmpty then (b.shuffles b.idx, b.idx + 1) else (b.bag, b.idx)
  (bg.getLastD .I, ⟨bg, b.shuffles, i⟩)

/-- Embeds `n` consecutive `next_piece` calls, collecting the returned kinds. -/
def drawPieces : ℕ → TetriminoBag → List Kind × TetriminoBag
  | 0, b => ([], b)
  | n + 1, b =>
    let (k, b') := next_piece b
    let (ks, b'') := drawPieces n b'
    (k :: ks, b'')

/-!
## Tetromino geometry and rotation

`Tetromino.get_rotated_clockwise` computes, with
`cx = cy = (size - 1) / 2`, the image `(round(cx + (y - cy)),
round(cy - (x - cx)))` of each cell `(x, y)`.  The Python floats are
modelled by exact rationals: every value that occurs is a multiple of
1/2 of magnitude below 8, all of which binary floating point represents
exactly, and every `round` argument turns out to be an exact integer, so
the tie-breaking convention never matters. -/
def rotationCenter (size : ℕ) : ℚ := ((size : ℚ) - 1) / 2

/-- Embeds `Tetromino.get_rotated_clockwise`, as a function of the stored
bounding-box size and current cell list. -/
def get_rotated_clockwise_cells (size : ℕ) (cells : List (ℤ × ℤ)) : List (ℤ × ℤ) :=
  cells.map fun p =>
    (round (rotationCenter size + ((p.2 : ℚ) - rotationCenter size)),
     round (rotationCenter size - ((p.1 : ℚ) - rotationCenter size)))

/-- Embeds `Tetromino.get_rotated_anticlockwise`. -/
def get_rotated_anticlockwise_cells (size : ℕ) (cells : List (ℤ × ℤ)) : List (ℤ × ℤ) :=
  cells.map fun p =>
    (round (rotationCenter size - ((p.2 : ℚ) - rotationCenter size)),
     round (rotationCenter size + ((p.1 : ℚ) - rotationCenter size)))

/-- State of a `Tetromino`: shape, board position of the bounding box's
top-left corner, and current cell offsets.  The `rotation` counter,
color and cached size of the source are functions of `shape` and are
not replicated as fields. -/
structure Tetromino where
  shape : Kind
  x : ℤ
  y : ℤ
  cells : List (ℤ × ℤ)
deriving Repr

instance : Inhabited Tetromino := ⟨⟨.I, 4, 0, pieceCells .I⟩⟩

/-- Embeds `Tetromino.__init__(shape, start_x_pos=4, start_rotation=0)`:
`x = start_x_pos`, `y = 0`, cells from the shape table. -/
def mkTetromino (shape : Kind) (start_x_pos : ℤ) : Tetromino :=
  ⟨shape, start_x_pos, 0, pieceCells shape⟩

/-- Embeds `Tetromino.get_rotated_clockwise` (method form; `self.size` is the
value cached at construction, a function of the shape). -/
def get_rotated_clockwise (t : Tetromino) : List (ℤ × ℤ) :=
  get_rotated_clockwise_cells (pieceSize t.shape) t.cells

/-- Embeds `Tetromino.rotate_clockwise`: `self.cells = self.get_rotated_clockwise()`. -/
def rotate_clockwise (t : Tetromino) : Tetromino :=
  { t with cells := get_rotated_clockwise t }

/-- The cell sets of a piece reachable by any sequence of clockwise /
anticlockwise rotations from its spawn cells. -/
inductive reachable_cells (k : Kind) : List (ℤ × ℤ) → Prop where
  | init : reachable_cells k (pieceCells k)
  | cw {cs} : reachable_cells k cs →
      reachable_cells k (get_rotated_clockwise_cells (pieceSize k) cs)
  | ccw {cs} : reachable_cells k cs →
      reachable_cells k (get_rotated_anticlockwise_cells (pieceSize k) cs)

/-!
## Gravity interval (C3)

`Tetris.main` recomputes, every iteration,
`main_interval = 0.8 * (0.9 ** (int(self.level)))` — with no lower
bound applied anywhere.  Modelled over exact rationals (the claim is
about the structural absence of a floor in the formula, not about float
rounding). -/
def main_interval (level : ℕ) : ℚ := (8 / 10) * (9 / 10) ^ level

/-!
## The board

`self.board` / `self.fixed_board` are `BOARD_Y`-long lists of
`BOARD_X`-long lists of cells, row 0 on top.  Python indexing
`board[r][c]` is embedded with `ℕ` indices via `getD`/`set`; `ℤ`
coordinates go through `Int.toNat`.  For in-range indices this agrees
with Python; theorems whose meaning depends on board reads hypothesise
in-range coordinates (out of range, Python would raise `IndexError` or
wrap a negative index to the other end). -/
abbrev Board : Type := List (List Cell)

/-- Embeds `board[r][c]` at natural indices. -/
def boardGetN (b : Board) (r c : ℕ) : Cell := (b.getD r []).getD c .space

/-- Embeds `board[r][c] = v` at natural indices (out-of-range: no-op, like the
`List.set` it is built from). -/
def boardSetN (b : Board) (r c : ℕ) (v : Cell) : Board :=
  List.set b r ((b.getD r []).set c v)

/-- Embeds `board[r][c]` at integer coordinates. -/
def boardGet (b : Board) (r c : ℤ) : Cell := boardGetN b r.toNat c.toNat

/-- Embeds `board[r][c] = v` at integer coordinates. -/
def boardSet (b : Board) (r c : ℤ) (v : Cell) : Board := boardSetN b r.toNat c.toNat v

/-- A row of `BOARD_X` empty cells: `[" " for _ in range(BOARD_X)]`. -/
def emptyRow : List Cell := List.replicate BOARD_X .space

/-- A row completely filled with kind `k`. -/
def fullRow (k : Kind) : List Cell := List.replicate BOARD_X (.filled k)

/-- The initial board: `[[" " ...] for i in range(BOARD_Y)]`. -/
def emptyBoard : Board := List.replicate BOARD_Y emptyRow

/-- Well-formed board: 20 rows of 10 cells. -/
abbrev BoardWF (b : Board) : Prop :=
  List.length b = BOARD_Y ∧ ∀ row ∈ b, List.length row = BOARD_X

/-!
## Row clearing (`Tetris.check_rows`)

The `while row >= 0` loop is embedded with the loop index shifted by
one (`r` here means `row + 1`, so `r = 0` is loop exit) and a fuel
argument for structural recursion.  One iteration either decrements `r`
or clears a full row; clearing replaces rows `1..row` by rows
`0..row-1` and empties row 0, which strictly decreases the number of
full rows at indices `≤ row`.  Hence the loop performs at most
`20 + (number of full rows) ≤ 40` iterations on the 20-row board, and
the fuel of 41 supplied by `check_rows` is never exhausted (the C4
theorem in particular exhibits complete runs).

Effects not modelled, being display-only: `winsound.Beep`, the
`update_screen`/`time.sleep` calls of the center-out clear animation
(whose cell writes blank exactly the cleared row and are then
overwritten by the row shift for `row > 0`, or by the explicit
`fixed_board[0] = ...` reset for `row = 0`). -/
/-- Embeds `all(FILL_CHAR in self.fixed_board[row][col] for col in range(BOARD_X))`. -/
def rowFull (row : List Cell) : Bool :=
  (List.range BOARD_X).all fun col => isFilled (row.getD col .space)

/-- The row shift performed after a clear at index `row`:
`for r in range(row, 0, -1): fixed_board[r] = fixed_board[r-1][:]`
then `fixed_board[0] = [" " for _ in range(BOARD_X)]`.  Each row `r`
receives the not-yet-overwritten old row `r - 1`, so the result is the
empty row consed onto the old rows `0..row-1` followed by the old rows
`row+1..`. -/
def shiftRows (b : Board) (row : ℕ) : Board :=
  emptyRow :: (b.take row ++ b.drop (row + 1))

/-- The game fields read and written by `check_rows`. `cleared_rows` is
the counter local to one `check_rows` call (reset by `check_rows`
itself). `level` is `int(self.settings.starting) + lines_cleared // 10`
with `starting` passed explicitly. -/
structure ClearState where
  fixed_board : Board
  cleared_rows : ℕ
  score : ℕ
  lines_cleared : ℕ
  level : ℕ
  message : String
deriving Repr, DecidableEq

/-- The body of one clearing iteration at row index `row`: bump the
counter, add `50 * (3 * cleared_rows)`, apply the `match cleared_rows`
message/bonus cases, shift the rows, bump `lines_cleared` and recompute
`level`. -/
def clearStep (starting : ℕ) (row : ℕ) (s : ClearState) : ClearState :=
  let cleared := s.cleared_rows + 1
  let score1 := s.score + 50 * (3 * cleared)
  let (score2, msg) :=
    match cleared with
    | 4 => (score1 + 500, "Tetris! + 500")
    | 3 => (score1, "Triple!")
    | 2 => (score1, "Double!")
    | 1 => (score1, "Single!")
    | _ => (score1, s.message)
  let lines := s.lines_cleared + 1
  ⟨shiftRows s.fixed_board row, cleared, score2, lines, starting + lines / 10, msg⟩

/-- One `check_rows` loop, fuel-indexed; `r` is the Python `row + 1`. -/
def checkRowsAux (starting : ℕ) : ℕ → ℕ → ClearState → ClearState
  | 0, _, s => s
  | _ + 1, 0, s => s
  | fuel + 1, r + 1, s =>
    if rowFull (s.fixed_board.getD r []) then
      checkRowsAux starting fuel (r + 1) (clearStep starting r s)
    else
      checkRowsAux starting fuel r s

/-- Embeds `Tetris.check_rows`: scan from the bottom row upward, clearing and
re-examining the same index after each clear. -/
def check_rows (starting : ℕ) (s : ClearState) : ClearState :=
  checkRowsAux starting 41 BOARD_Y { s with cleared_rows := 0 }

/-- A fresh fixed board whose bottom `n` rows are completely filled. -/
def bottomFilled (n : ℕ) (k : Kind) : Board :=
  List.replicate (BOARD_Y - n) emptyRow ++ List.replicate n (fullRow k)

/-!
## Rotation legality, gravity landing, merging, hold

These embed `Tetris.can_rotate_clockwise`, `Tetris.calculate_y`,
`Tetris.update`, `Tetris.can_move_down`, `Tetris.update_fixed_board`,
`Tetris.advance_state` and the `HOLD` case of `Tetris.main`. -/
/-- Embeds `len(set(self.cells) & set(rotated))`.  The cell lists of reachable
pieces are duplicate-free (the spawn tables are, and the rotation maps
are injective), so this filtered-list length equals the
set-intersection cardinality; theorems hypothesise the `Nodup`. -/
def overlapCount (cells rotated : List (ℤ × ℤ)) : ℕ :=
  (cells.filter fun c => decide (c ∈ rotated)).length

/-- Embeds `Tetris.can_rotate_clockwise(shape)`.  The Python loop returns
`False` at the first candidate cell outside horizontal bounds; as the
board reads are pure, that early return is equivalent to the leading
`any` test.  The board consulted is `self.board`: the display board on
which the active piece itself has been drawn by `update_screen`. -/
def can_rotate_clockwise (board : Board) (shape : Tetromino) : Bool :=
  let rotated := get_rotated_clockwise shape
  let overlap := overlapCount shape.cells rotated
  if rotated.any fun i =>
      decide (shape.x + i.2 < 0) || decide ((BOARD_X : ℤ) ≤ shape.x + i.2) then
    false
  else
    let free := rotated.countP fun i =>
      !isFilled (boardGet board (shape.y + i.1) (shape.x + i.2))
    free == rotated.length - overlap

/-- The `case "UP"` branch of `Tetris.main`'s event loop: rotate in
place when legal, otherwise leave the piece untouched (no wall-kick
search at any shifted origin). -/
def apply_rotate_cw (board : Board) (shape : Tetromino) : Tetromino :=
  if can_rotate_clockwise board shape then rotate_clockwise shape else shape

/-- The specification's formulation of rotation legality (spec §4.2),
stated over the settled grid: every candidate cell lies within
horizontal bounds `[0, BOARD_X)`, and the count of candidate cells that
are free in the Grid or occupied by the piece's own current cells
equals the number of candidate cells. -/
def spec_rotation_legal (fixed : Board) (shape : Tetromino) : Bool :=
  let rotated := get_rotated_clockwise shape
  (rotated.all fun i =>
      decide (0 ≤ shape.x + i.2) && decide (shape.x + i.2 < (BOARD_X : ℤ))) &&
  ((rotated.countP fun i =>
      !isFilled (boardGet fixed (shape.y + i.1) (shape.x + i.2))
        || decide (i ∈ shape.cells))
    == rotated.length)

/-- The collision test of one `Tetris.calculate_y` iteration: some cell,
moved down one more row, would leave the board bottom or land on a
settled `FILL_CHAR` cell (the Python `for`'s early `return` is
equivalent to `any` because the reads are pure). -/
def calcYCollides (fixed : Board) (cells : List (ℤ × ℤ)) (x start_y : ℤ) : Bool :=
  cells.any fun cc =>
    decide ((BOARD_Y : ℤ) ≤ start_y + cc.1 + 1) ||
      isFilled (boardGet fixed (start_y + cc.1 + 1) (x + cc.2))

/-- The `while True` loop of `Tetris.calculate_y`, fuel-indexed. -/
def calcYAux (fixed : Board) (cells : List (ℤ × ℤ)) (x : ℤ) : ℕ → ℤ → ℤ
  | 0, start_y => start_y
  | fuel + 1, start_y =>
    if calcYCollides fixed cells x start_y then start_y
    else calcYAux fixed cells x fuel (start_y + 1)

/-- Embeds `Tetris.calculate_y(tetromino)`: the landing row of the piece.  For
a piece whose (nonempty) cell list has nonnegative row offsets — true
of every reachable piece, whose cells stay in the bounding box — the
loop stops no later than `start_y = BOARD_Y`, i.e. within
`BOARD_Y + 1 + |y|` iterations, so the fuel is never exhausted. -/
def calculate_y (fixed : Board) (t : Tetromino) : ℤ :=
  calcYAux fixed t.cells t.x (BOARD_Y + 1 + t.y.natAbs) t.y

/-- Embeds `Tetris.can_move_down(shape)`: `shape.y < self.calculate_y(shape)`. -/
def can_move_down (fixed : Board) (t : Tetromino) : Bool :=
  decide (t.y < calculate_y fixed t)

/-- First loop of `Tetris.update(shape)`: stamp each piece cell onto the
display board as `Filled`, or set `dead` when the target cell already
holds `FILL_CHAR` (that target is then left unchanged). -/
def mergeCells (y x : ℤ) (k : Kind) : List (ℤ × ℤ) → Board → Bool → Board × Bool
  | [], board, dead => (board, dead)
  | cc :: rest, board, dead =>
    if isFilled (boardGet board (y + cc.1) (x + cc.2)) then
      mergeCells y x k rest board true
    else
      mergeCells y x k rest (boardSet board (y + cc.1) (x + cc.2) (.filled k)) dead

/-- Second loop of `Tetris.update(shape)`: draw the ghost preview at
the landing row `gy = self.calculate_y(shape)` (recomputed from the
unchanging fixed board at each iteration, hence passed in once),
writing only cells that hold no `FILL_CHAR`. -/
def ghostCells (gy x : ℤ) (k : Kind) : List (ℤ × ℤ) → Board → Board
  | [], board => board
  | cc :: rest, board =>
    if isFilled (boardGet board (gy + cc.1) (x + cc.2)) then
      ghostCells gy x k rest board
    else
      ghostCells gy x k rest (boardSet board (gy + cc.1) (x + cc.2) (.ghost k))

/-- Embeds `Tetris.update(shape)`: the merge loop, then the ghost loop.
`fixed` is `self.fixed_board` (read by `calculate_y`), `board` is
`self.board` (read and written), `dead` is `self.dead` on entry. -/
def update (fixed board : Board) (shape : Tetromino) (dead : Bool) : Board × Bool :=
  let md := mergeCells shape.y shape.x shape.shape shape.cells board dead
  (ghostCells (calculate_y fixed shape) shape.x shape.shape shape.cells md.1, md.2)

/-- Embeds `Tetris.update_fixed_board`: copy every `FILL_CHAR` cell of the
display board into the fixed board. -/
def update_fixed_board (board fixed : Board) : Board :=
  (List.range BOARD_Y).foldl
    (fun fx row =>
      (List.range BOARD_X).foldl
        (fun fx2 col =>
          if isFilled (boardGetN board row col) then
            boardSetN fx2 row col (boardGetN board row col)
          else fx2)
        fx)
    fixed

/-- The `Tetris` game-object fields touched by the embedded operations.
`settings.highscore` and the printing / process-exit effects of
`update_screen` are display and persistence concerns and are not
modelled; its state mutations (`self.board`, `self.dead`) are. -/
structure Game where
  board : Board
  fixed_board : Board
  shapes : List Tetromino
  bag : TetriminoBag
  lines_cleared : ℕ
  score : ℕ
  dead : Bool
  message : String
  level : ℕ
  starting : ℕ
  hold : Option Tetromino
  swapped_held : Bool

/-- The state mutations of `Tetris.update_screen`:
`self.board = copy.deepcopy(self.fixed_board)` then
`self.update(self.shapes[-1])`. -/
def update_screen_state (g : Game) : Game :=
  let md := update g.fixed_board g.fixed_board (g.shapes.getLastD default) g.dead
  { g with board := md.1, dead := md.2 }

/-- Embeds `Tetris.advance_state`: clear the message; if the current shape can
fall, move it down one row, else spawn `Tetromino(bag.next_piece(), 4,
0)`, fix the display board into the settled board, run `check_rows`,
and reset the hold latch; finally `update_screen`. -/
def advance_state (g0 : Game) : Game :=
  let current := g0.shapes.getLastD default
  let g := { g0 with message := "" }
  if can_move_down g.fixed_board current then
    update_screen_state
      { g with shapes := g.shapes.dropLast ++ [{ current with y := current.y + 1 }] }
  else
    let kb := next_piece g.bag
    let g1 := { g with shapes := g.shapes ++ [mkTetromino kb.1 4], bag := kb.2 }
    let fixed' := update_fixed_board g1.board g1.fixed_board
    let cr := check_rows g1.starting
      ⟨fixed', 0, g1.score, g1.lines_cleared, g1.level, g1.message⟩
    update_screen_state
      { g1 with
          fixed_board := cr.fixed_board
          score := cr.score
          lines_cleared := cr.lines_cleared
          level := cr.level
          message := cr.message
          swapped_held := false }

/-- The `case "HOLD"` branch of `Tetris.main`'s event loop: when the
latch `swapped_held` is clear, set it and either stash the current
shape and spawn from the bag (nothing held yet) or swap the held and
current shapes, both reconstructed at spawn position/orientation; when
the latch is set, do nothing.  (The `update_screen` call that follows
every event in the source only recomputes the derived display board
and dead flag; it touches none of `hold`, `shapes`, `swapped_held`.) -/
def apply_hold (g : Game) : Game :=
  if !g.swapped_held then
    let current := g.shapes.getLastD default
    match g.hold with
    | none =>
      let kb := next_piece g.bag
      { g with
          swapped_held := true
          hold := some (mkTetromino current.shape 4)
          shapes := g.shapes ++ [mkTetromino kb.1 4]
          bag := kb.2 }
    | some h =>
      { g with
          swapped_held := true
          hold := some (mkTetromino current.shape 4)
          shapes := g.shapes.dropLast ++ [mkTetromino h.shape 4] }
  else g

/-- A concrete game state for the hold witness: an O piece resting on
the floor of an empty board, nothing held, latch clear. -/
def holdWitnessGame : Game :=
  ⟨emptyBoard, emptyBoard, [⟨.O, 4, 18, pieceCells .O⟩], ⟨[], fun _ => fullBag, 0⟩,
    0, 0, false, "", 0, 0, none, false⟩

/-- Distinctness of a piece's write targets, at the natural-number
index level actually used by the board accessors. -/
abbrev PairwiseTargets (y x : ℤ) (cells : List (ℤ × ℤ)) : Prop :=
  List.Pairwise
    (fun a a' => ¬((y + a.1).toNat = (y + a'.1).toNat ∧
      (x + a.2).toNat = (x + a'.2).toNat)) cells

/-- In-board bounds for every write target of a piece. -/
abbrev TargetsInBounds (y x : ℤ) (cells : List (ℤ × ℤ)) : Prop :=
  ∀ cc ∈ cells, 0 ≤ y + cc.1 ∧ y + cc.1 < (BOARD_Y : ℤ) ∧
    0 ≤ x + cc.2 ∧ x + cc.2 < (BOARD_X : ℤ)

/-!
## Theorems
-/

lemma next_piece_nonempty (bag : List Kind) (a : Kind) (sh : ℕ → List Kind) (i : ℕ) :
    next_piece ⟨bag ++ [a], sh, i⟩ = (a, ⟨bag, sh, i⟩) := by
  simp [next_piece]

/-- Draining a nonempty bag of length `n` with `n` draws returns its
elements last-to-first and empties it, without consulting the shuffle
stream. -/
lemma drawPieces_drain (bag : List Kind) (sh : ℕ → List Kind) (i : ℕ) :
    drawPieces bag.length ⟨bag, sh, i⟩ = (bag.reverse, ⟨[], sh, i⟩) := by
  induction bag using List.reverseRecOn with
  | nil => simp [drawPieces]
  | append_singleton l a ih =>
    rw [List.length_append]
    simp only [List.length_singleton]
    rw [drawPieces, next_piece_nonempty]
    simp [ih]

/-- With one draw already split off: drawing 7 pieces starting from the
empty bag returns the reverse of the shuffle outcome installed by the
refill. -/
lemma drawPieces_seven_of_empty (sh : ℕ → List Kind) (i : ℕ)
    (hlen : (sh i).length = 7) :
    (drawPieces 7 ⟨[], sh, i⟩).1 = (sh i).reverse := by
  have hne : sh i ≠ [] := by
    intro h
    rw [h] at hlen
    simp at hlen
  obtain ⟨l, a, hla⟩ : ∃ l a, sh i = l ++ [a] := by
    rcases (sh i).eq_nil_or_concat with h | ⟨l, a, h⟩
    · exact absurd h hne
    · exact ⟨l, a, by simpa [List.concat_eq_append] using h⟩
  have hfirst : next_piece ⟨[], sh, i⟩ = (a, ⟨l, sh, i + 1⟩) := by
    simp [next_piece, hla]
  have hl6 : l.length = 6 := by
    have := hlen
    rw [hla, List.length_append] at this
    simpa using this
  show (drawPieces (6 + 1) ⟨[], sh, i⟩).1 = (sh i).reverse
  rw [drawPieces, hfirst]
  have := drawPieces_drain l sh (i + 1)
  rw [hl6] at this
  simp [this, hla]

/-- C2 (counterexample): from the empty bag, `peek` refills the bag
before reading, so the bag's contents are NOT identical before and
after the call — here they change from `[]` to the 7-element refill.
The refill happens for every shuffle outcome; the identity permutation
is used as the concrete one. -/
theorem tetris_c2_counterexample :
    (peek ⟨[], fun _ => fullBag, 0⟩).2.bag ≠ (TetriminoBag.mk [] (fun _ => fullBag) 0).bag := by
  decide

/-- C2 (amended): `peek` returns the bag's last element without
removing it and leaves a nonempty bag unchanged; on an empty bag it
first refills the bag with the full shuffled 7-kind set — a mutation —
and returns that refill's last element. -/
theorem tetris_c2_peek_frame (b : TetriminoBag) :
    (b.bag ≠ [] → (peek b).1 = b.bag.getLastD .I ∧ (peek b).2 = b) ∧
    (b.bag = [] → (peek b).1 = (b.shuffles b.idx).getLastD .I ∧
      (peek b).2 = ⟨b.shuffles b.idx, b.shuffles, b.idx + 1⟩) := by
  rcases b with ⟨bag, sh, i⟩
  constructor
  · intro h
    cases bag with
    | nil => exact absurd rfl h
    | cons x xs => simp [peek]
  · intro h
    subst h
    simp [peek]

/-- Witness for C2's amended theorem: a concrete nonempty bag is left
unchanged, and a concrete empty bag is refilled and advanced. -/
theorem tetris_c2_witness :
    (([Kind.T] : List Kind) ≠ [] ∧
      (peek ⟨[Kind.T], fun _ => fullBag, 0⟩).2 = ⟨[Kind.T], fun _ => fullBag, 0⟩) ∧
    (peek ⟨[], fun _ => fullBag, 5⟩).2 = ⟨fullBag, fun _ => fullBag, 6⟩ :=
  ⟨⟨by decide, ((tetris_c2_peek_frame ⟨[Kind.T], fun _ => fullBag, 0⟩).1 (by decide)).2⟩, by
    have h := ((tetris_c2_peek_frame ⟨[], fun _ => fullBag, 5⟩).2 rfl).2
    simpa using h⟩

/-- C6: starting from an empty bag, 7 consecutive `next_piece` calls
return each of the 7 kinds exactly once (the returned list is a
permutation of the full 7-kind set), for every shuffle outcome that is
itself a permutation of the full set. -/
theorem tetris_c6_bag_fairness (sh : ℕ → List Kind) (i : ℕ)
    (hperm : (sh i).Perm fullBag) :
    ((drawPieces 7 ⟨[], sh, i⟩).1).Perm fullBag := by
  have hlen : (sh i).length = 7 := by
    rw [hperm.length_eq]
    rfl
  rw [drawPieces_seven_of_empty sh i hlen]
  exact ((sh i).reverse_perm).trans hperm

/-- Witness for C6 at the identity shuffle outcome. -/
theorem tetris_c6_witness :
    ((fun _ : ℕ => fullBag) 0).Perm fullBag ∧
    ((drawPieces 7 ⟨[], fun _ => fullBag, 0⟩).1).Perm fullBag :=
  ⟨List.Perm.refl _, tetris_c6_bag_fairness (fun _ => fullBag) 0 (List.Perm.refl _)⟩

/-- C10: `next_piece` immediately after `peek` returns exactly the kind
that `peek` returned, for every bag state (the shuffle outcome consulted
on an empty-bag refill is nonempty, as every permutation of the 7 kinds
is). -/
theorem tetris_c10_peek_next_agree (b : TetriminoBag)
    (h : b.shuffles b.idx ≠ []) :
    (next_piece (peek b).2).1 = (peek b).1 := by
  rcases b with ⟨bag, sh, i⟩
  cases bag with
  | nil =>
    cases hsi : sh i with
    | nil => exact absurd hsi h
    | cons x xs => simp [peek, next_piece, hsi]
  | cons x xs => simp [peek, next_piece]

/-- Witness for C10 at a concrete empty bag. -/
theorem tetris_c10_witness :
    ((fun _ : ℕ => fullBag) 0 ≠ []) ∧
    (next_piece (peek ⟨[], fun _ => fullBag, 0⟩).2).1 = (peek ⟨[], fun _ => fullBag, 0⟩).1 :=
  ⟨by decide, tetris_c10_peek_next_agree ⟨[], fun _ => fullBag, 0⟩ (by decide)⟩

lemma rot_cw_point (s : ℕ) (p : ℤ × ℤ) :
    (round (rotationCenter s + ((p.2 : ℚ) - rotationCenter s)),
     round (rotationCenter s - ((p.1 : ℚ) - rotationCenter s)))
      = (p.2, (s : ℤ) - 1 - p.1) := by
  have h1 : rotationCenter s + ((p.2 : ℚ) - rotationCenter s) = ((p.2 : ℤ) : ℚ) := by
    ring
  have h2 : rotationCenter s - ((p.1 : ℚ) - rotationCenter s)
      = (((s : ℤ) - 1 - p.1 : ℤ) : ℚ) := by
    unfold rotationCenter
    push_cast
    ring
  rw [h1, h2, round_intCast, round_intCast]

/-- The `round`-based clockwise rotation is exactly
`(x, y) ↦ (y, size - 1 - x)`. -/
lemma get_rotated_clockwise_cells_eq (s : ℕ) (cells : List (ℤ × ℤ)) :
    get_rotated_clockwise_cells s cells
      = cells.map (fun p => (p.2, (s : ℤ) - 1 - p.1)) := by
  unfold get_rotated_clockwise_cells
  exact List.map_congr_left fun p _ => rot_cw_point s p

lemma rotate_cw_four_cells (s : ℕ) (cells : List (ℤ × ℤ)) :
    get_rotated_clockwise_cells s (get_rotated_clockwise_cells s
      (get_rotated_clockwise_cells s (get_rotated_clockwise_cells s cells))) = cells := by
  simp only [get_rotated_clockwise_cells_eq, List.map_map]
  have h : ∀ p : ℤ × ℤ,
      ((fun p : ℤ × ℤ => (p.2, (s : ℤ) - 1 - p.1)) ∘ (fun p => (p.2, (s : ℤ) - 1 - p.1))
        ∘ (fun p => (p.2, (s : ℤ) - 1 - p.1)) ∘ (fun p => (p.2, (s : ℤ) - 1 - p.1))) p = p := by
    rintro ⟨a, b⟩
    simp only [Function.comp_apply, Prod.mk.injEq]
    constructor <;> omega
  calc cells.map _ = cells.map id := List.map_congr_left fun p _ => h p
    _ = cells := List.map_id cells

/-- C5: for every piece kind and every reachable cell set, four
applications of the clockwise rotation return the piece to exactly its
original state (the proof works for every cell list, so in particular
for the reachable ones, including the O and I pieces under the
round-based centre formula). -/
theorem tetris_c5_rotation_closure (t : Tetromino)
    (h : reachable_cells t.shape t.cells) :
    rotate_clockwise (rotate_clockwise (rotate_clockwise (rotate_clockwise t))) = t := by
  rcases t with ⟨k, x, y, cs⟩
  simp only [rotate_clockwise, get_rotated_clockwise]
  exact congrArg (Tetromino.mk k x y) (rotate_cw_four_cells (pieceSize k) cs)

/-- Witness for C5: the I piece at spawn. -/
theorem tetris_c5_witness :
    reachable_cells Kind.I (mkTetromino Kind.I 4).cells ∧
    rotate_clockwise (rotate_clockwise (rotate_clockwise (rotate_clockwise
      (mkTetromino Kind.I 4)))) = mkTetromino Kind.I 4 :=
  ⟨reachable_cells.init, tetris_c5_rotation_closure (mkTetromino Kind.I 4) reachable_cells.init⟩

/-- C3: the code has NO positive gravity-interval floor: for every
candidate floor `m > 0` there is a level whose computed interval is
strictly below `m`.  This refutes the claim's "for every level the
computed interval is >= that minimum" for every choice of positive
minimum. -/
theorem tetris_c3_no_gravity_floor (m : ℚ) (hm : 0 < m) :
    ∃ level : ℕ, main_interval level < m := by
  obtain ⟨n, hn⟩ := exists_pow_lt_of_lt_one hm (show (9 : ℚ) / 10 < 1 by norm_num)
  refine ⟨n, ?_⟩
  unfold main_interval
  have hpos : (0 : ℚ) < (9 / 10) ^ n := pow_pos (by norm_num) n
  have hlt : (8 / 10 : ℚ) * (9 / 10) ^ n < (9 / 10) ^ n := by nlinarith
  exact hlt.trans hn

/-- Witness for C3 at the spec's example floor 0.1 s. -/
theorem tetris_c3_witness :
    (0 : ℚ) < 1 / 10 ∧ ∃ level, main_interval level < 1 / 10 :=
  ⟨by norm_num, tetris_c3_no_gravity_floor (1 / 10) (by norm_num)⟩

lemma length_boardSetN (b : Board) (r c : ℕ) (v : Cell) :
    List.length (boardSetN b r c v) = List.length b := by
  simp [boardSetN]

lemma getD_mem_of_lt {b : Board} {r : ℕ} (hrb : r < List.length b) : b.getD r [] ∈ b := by
  rw [List.getD_eq_getElem?_getD, List.getElem?_eq_getElem hrb]
  exact List.getElem_mem hrb

lemma boardSetN_wf {b : Board} (h : BoardWF b) (r c : ℕ) (v : Cell) :
    BoardWF (boardSetN b r c v) := by
  obtain ⟨hlen, hrow⟩ := h
  by_cases hrb : r < List.length b
  · refine ⟨by simp [boardSetN, hlen], ?_⟩
    intro row hmem
    rcases List.mem_or_eq_of_mem_set hmem with h' | h'
    · exact hrow row h'
    · subst h'
      rw [List.length_set]
      exact hrow _ (getD_mem_of_lt hrb)
  · unfold boardSetN
    rw [List.set_eq_of_length_le (Nat.le_of_not_lt hrb)]
    exact ⟨hlen, hrow⟩

lemma boardGetN_boardSetN_self' {b : Board} {r c : ℕ}
    (hrb : r < List.length b) (hcl : c < List.length (b.getD r [])) (v : Cell) :
    boardGetN (boardSetN b r c v) r c = v := by
  unfold boardGetN boardSetN
  simp only [List.getD_eq_getElem?_getD] at hcl ⊢
  rw [List.getElem?_set_self hrb, Option.getD_some, List.getElem?_set_self hcl,
    Option.getD_some]

lemma boardGetN_boardSetN_self {b : Board} (h : BoardWF b) {r c : ℕ}
    (hr : r < BOARD_Y) (hc : c < BOARD_X) (v : Cell) :
    boardGetN (boardSetN b r c v) r c = v := by
  obtain ⟨hlen, hrow⟩ := h
  have hrb : r < List.length b := by rw [hlen]; exact hr
  have hcl : c < List.length (b.getD r []) := by
    rw [hrow _ (getD_mem_of_lt hrb)]
    exact hc
  exact boardGetN_boardSetN_self' hrb hcl v

/-- Writing to a board either stores the value (in-range write) or, out
of range, leaves the read unchanged. -/
lemma boardGetN_boardSetN_self_or (b : Board) (r c : ℕ) (v : Cell) :
    boardGetN (boardSetN b r c v) r c = v ∨
      boardGetN (boardSetN b r c v) r c = boardGetN b r c := by
  by_cases hrb : r < List.length b
  · by_cases hcl : c < List.length (b.getD r [])
    · exact Or.inl (boardGetN_boardSetN_self' hrb hcl v)
    · refine Or.inr ?_
      unfold boardGetN boardSetN
      simp only [List.getD_eq_getElem?_getD] at hcl ⊢
      rw [List.getElem?_set_self hrb, Option.getD_some,
        List.set_eq_of_length_le (Nat.le_of_not_lt hcl)]
  · refine Or.inr ?_
    unfold boardSetN
    rw [List.set_eq_of_length_le (Nat.le_of_not_lt hrb)]

lemma boardGetN_boardSetN_ne (b : Board) {r c r' c' : ℕ} (v : Cell)
    (h : r ≠ r' ∨ c ≠ c') :
    boardGetN (boardSetN b r c v) r' c' = boardGetN b r' c' := by
  unfold boardGetN boardSetN
  simp only [List.getD_eq_getElem?_getD]
  rcases h with h | h
  · rw [List.getElem?_set_ne h]
  · by_cases hr : r = r'
    · subst hr
      by_cases hrb : r < List.length b
      · rw [List.getElem?_set_self hrb, Option.getD_some, List.getElem?_set_ne h]
      · rw [List.set_eq_of_length_le (Nat.le_of_not_lt hrb)]
    · rw [List.getElem?_set_ne hr]

/-- C1 (counterexample): clearing 2 simultaneous rows from a fresh
state with score 0 yields score 450, not the claimed `50 * 3 * 2 =
300`: the code adds `50 * (3 * cleared_rows)` per cleared row with the
running counter, i.e. 150 for the first and 300 for the second. -/
theorem tetris_c1_counterexample :
    (check_rows 0 ⟨bottomFilled 2 .I, 0, 0, 0, 0, ""⟩).score = 450 ∧
      (450 : ℕ) ≠ 50 * 3 * 2 := by
  constructor
  · decide
  · decide

/-- C1 (amended): from a fresh state with score 0, clearing
`n ∈ {1,2,3,4}` simultaneous rows awards `150 * k` points for the k-th
row cleared (total `75 * n * (n+1)`), plus a flat +500 bonus when the
counter reaches 4, giving final scores 150 / 450 / 900 / 2000. -/
theorem tetris_c1_scoring_table :
    (check_rows 0 ⟨bottomFilled 1 .I, 0, 0, 0, 0, ""⟩).score = 150 ∧
    (check_rows 0 ⟨bottomFilled 2 .I, 0, 0, 0, 0, ""⟩).score = 450 ∧
    (check_rows 0 ⟨bottomFilled 3 .I, 0, 0, 0, 0, ""⟩).score = 900 ∧
    (check_rows 0 ⟨bottomFilled 4 .I, 0, 0, 0, 0, ""⟩).score = 2000 := by
  refine ⟨?_, ?_, ?_, ?_⟩ <;> decide

lemma checkRowsAux_exit (starting f : ℕ) (s : ClearState) :
    checkRowsAux starting (f + 1) 0 s = s := rfl

lemma checkRowsAux_full {starting fuel r : ℕ} {s : ClearState}
    (h : rowFull (s.fixed_board.getD r []) = true) :
    checkRowsAux starting (fuel + 1) (r + 1) s =
      checkRowsAux starting fuel (r + 1) (clearStep starting r s) := by
  simp only [checkRowsAux]
  rw [h]
  simp

lemma checkRowsAux_notfull {starting fuel r : ℕ} {s : ClearState}
    (h : rowFull (s.fixed_board.getD r []) = false) :
    checkRowsAux starting (fuel + 1) (r + 1) s = checkRowsAux starting fuel r s := by
  simp only [checkRowsAux]
  rw [h]
  simp

/-- Scanning over `k` consecutive not-full rows just decrements the
index, consuming one unit of fuel per row. -/
lemma checkRowsAux_skip (starting : ℕ) (k : ℕ) {f r : ℕ} {s : ClearState}
    (h : ∀ i, r ≤ i → i < r + k → rowFull (s.fixed_board.getD i []) = false) :
    checkRowsAux starting (k + f) (r + k) s = checkRowsAux starting f r s := by
  induction k with
  | zero => simp
  | succ k ih =>
    have h1 : k + 1 + f = k + f + 1 := by omega
    have h2 : r + (k + 1) = (r + k) + 1 := by omega
    rw [h1, h2, checkRowsAux_notfull (h (r + k) (by omega) (by omega))]
    exact ih fun i hi1 hi2 => h i hi1 (by omega)

lemma getD_append_left {α : Type} {l₁ l₂ : List α} {d : α} {i : ℕ}
    (h : i < l₁.length) :
    (l₁ ++ l₂).getD i d = l₁.getD i d := by
  simp only [List.getD_eq_getElem?_getD]
  rw [List.getElem?_append_left h]

lemma getD_take_of_lt {α : Type} {l : List α} {d : α} {i n : ℕ} (h : i < n) :
    (l.take n).getD i d = l.getD i d := by
  simp only [List.getD_eq_getElem?_getD]
  rw [List.getElem?_take_of_lt h]

lemma rowFull_emptyRow : rowFull emptyRow = false := by decide

/-- One clear at row `row + 1` on a 20-row board `b`, then a second
clear at the same index: the double row shift. -/
lemma shiftRows_twice (b : Board) (r : ℕ) (hlen : List.length b = BOARD_Y)
    (hr : r + 1 < BOARD_Y) :
    shiftRows (shiftRows b (r + 1)) (r + 1)
      = emptyRow :: emptyRow :: (b.take r ++ b.drop (r + 2)) := by
  have hlen20 : List.length b = 20 := hlen
  unfold shiftRows
  congr 1
  rw [List.take_succ_cons, List.drop_succ_cons]
  have htake : (b.take (r + 1) ++ b.drop (r + 2)).take r = b.take r := by
    rw [List.take_append_eq_append_take]
    have h1 : (b.take (r + 1)).take r = b.take r := by
      rw [List.take_take]
      congr 1
      omega
    have h2 : r - (b.take (r + 1)).length = 0 := by
      rw [List.length_take]
      omega
    rw [h1, h2, List.take_zero, List.append_nil]
  have hdrop : (b.take (r + 1) ++ b.drop (r + 2)).drop (r + 1) = b.drop (r + 2) := by
    rw [List.drop_append_eq_append_drop]
    have h1 : (b.take (r + 1)).drop (r + 1) = [] :=
      List.drop_eq_nil_of_le (by rw [List.length_take]; omega)
    have h2 : r + 1 - (b.take (r + 1)).length = 0 := by
      rw [List.length_take]
      omega
    rw [h1, h2, List.drop_zero, List.nil_append]
  rw [htake, hdrop, List.cons_append]

/-- After one clear at `r + 1`, the row now at index `r + 1` is the old
row `r`. -/
lemma shiftRows_getD_succ (b : Board) (r : ℕ) (hlen : List.length b = BOARD_Y)
    (hr : r + 1 < BOARD_Y) :
    (shiftRows b (r + 1)).getD (r + 1) [] = b.getD r [] := by
  unfold shiftRows
  rw [List.getD_cons_succ]
  have hlt : r < (b.take (r + 1)).length := by
    rw [List.length_take]
    have : List.length b = 20 := hlen
    omega
  rw [getD_append_left hlt, getD_take_of_lt (by omega)]

/-- C4: on a 20-row board whose only full rows are the adjacent pair
`r` and `r + 1`, one `check_rows` call clears exactly those two rows
(counting 2, adding 2 to `lines_cleared`), shifts everything above each
cleared row down by one (the board becomes two empty rows on top of the
old rows `0..r-1` followed by the old rows `r+2..`), and leaves row 0
entirely empty; the scan pointer is not advanced after a clear, which
is what lets the second adjacent row be caught at the same index. -/
theorem tetris_c4_cascading_clears (b : Board) (r : ℕ)
    (starting c₀ sc₀ ln₀ lv₀ : ℕ) (msg₀ : String)
    (hlen : List.length b = BOARD_Y)
    (hr : r + 1 < BOARD_Y)
    (hfull0 : rowFull (b.getD r []) = true)
    (hfull1 : rowFull (b.getD (r + 1) []) = true)
    (hother : ∀ i, i < BOARD_Y → i ≠ r → i ≠ r + 1 → rowFull (b.getD i []) = false) :
    check_rows starting ⟨b, c₀, sc₀, ln₀, lv₀, msg₀⟩ =
      ⟨emptyRow :: emptyRow :: (b.take r ++ b.drop (r + 2)), 2, sc₀ + 450, ln₀ + 2,
        starting + (ln₀ + 2) / 10, "Double!"⟩ ∧
    (check_rows starting ⟨b, c₀, sc₀, ln₀, lv₀, msg₀⟩).fixed_board.getD 0 [] = emptyRow := by
  have hB : BOARD_Y = 20 := rfl
  have hr18 : r ≤ 18 := by omega
  have hmain : check_rows starting ⟨b, c₀, sc₀, ln₀, lv₀, msg₀⟩ =
      ⟨emptyRow :: emptyRow :: (b.take r ++ b.drop (r + 2)), 2, sc₀ + 450, ln₀ + 2,
        starting + (ln₀ + 2) / 10, "Double!"⟩ := by
    unfold check_rows
    have hstart : ({ (⟨b, c₀, sc₀, ln₀, lv₀, msg₀⟩ : ClearState) with cleared_rows := 0 }
        : ClearState) = ⟨b, 0, sc₀, ln₀, lv₀, msg₀⟩ := rfl
    rw [hstart]
    -- descend from index 20 to index r + 2 over not-full rows
    have e1 : (41 : ℕ) = (18 - r) + (23 + r) := by omega
    have e2 : BOARD_Y = (r + 2) + (18 - r) := by omega
    rw [e1, e2, checkRowsAux_skip starting (18 - r)
      (fun i hi1 hi2 => hother i (by omega) (by omega) (by omega))]
    -- first clear, at row index r + 1
    have e3 : 23 + r = (22 + r) + 1 := by omega
    rw [e3, checkRowsAux_full (s := ⟨b, 0, sc₀, ln₀, lv₀, msg₀⟩) hfull1]
    -- the clearStep state after the first clear
    have hs1 : clearStep starting (r + 1) ⟨b, 0, sc₀, ln₀, lv₀, msg₀⟩ =
        ⟨shiftRows b (r + 1), 1, sc₀ + 150, ln₀ + 1, starting + (ln₀ + 1) / 10,
          "Single!"⟩ := rfl
    rw [hs1]
    -- second clear, same row index r + 1 (scan pointer not advanced)
    have e4 : 22 + r = (21 + r) + 1 := by omega
    have hfull1' : rowFull ((shiftRows b (r + 1)).getD (r + 1) []) = true := by
      rw [shiftRows_getD_succ b r hlen hr]
      exact hfull0
    rw [e4, checkRowsAux_full
      (s := ⟨shiftRows b (r + 1), 1, sc₀ + 150, ln₀ + 1, starting + (ln₀ + 1) / 10,
        "Single!"⟩) hfull1']
    have hs2 : clearStep starting (r + 1)
        ⟨shiftRows b (r + 1), 1, sc₀ + 150, ln₀ + 1, starting + (ln₀ + 1) / 10,
          "Single!"⟩ =
        ⟨shiftRows (shiftRows b (r + 1)) (r + 1), 2, sc₀ + 150 + 300, ln₀ + 1 + 1,
          starting + (ln₀ + 1 + 1) / 10, "Double!"⟩ := rfl
    rw [hs2, shiftRows_twice b r hlen hr]
    -- descend from index r + 2 to 0 over the shifted board, all not full
    have e5 : 21 + r = (r + 2) + 19 := by omega
    have hnf : ∀ i, 0 ≤ i → i < 0 + (r + 2) →
        rowFull ((emptyRow :: emptyRow :: (b.take r ++ b.drop (r + 2))).getD i [])
          = false := by
      intro i _ hi2
      match i with
      | 0 => rw [List.getD_cons_zero]; exact rowFull_emptyRow
      | 1 => rw [List.getD_cons_succ, List.getD_cons_zero]; exact rowFull_emptyRow
      | j + 2 =>
        rw [List.getD_cons_succ, List.getD_cons_succ]
        have hj : j < r := by omega
        have hjl : j < (b.take r).length := by
          rw [List.length_take]
          omega
        rw [getD_append_left hjl, getD_take_of_lt hj]
        exact hother j (by omega) (by omega) (by omega)
    have hskip := checkRowsAux_skip starting (r + 2) (f := 19)
      (s := ⟨emptyRow :: emptyRow :: (b.take r ++ b.drop (r + 2)), 2, sc₀ + 150 + 300,
        ln₀ + 1 + 1, starting + (ln₀ + 1 + 1) / 10, "Double!"⟩) hnf
    rw [Nat.zero_add] at hskip
    rw [e5, hskip]
    rw [show (19 : ℕ) = 18 + 1 from rfl, checkRowsAux_exit]
    -- `rw` closes the final record equality by `rfl` (the score sums
    -- are definitionally equal numerals)
  refine ⟨hmain, ?_⟩
  rw [hmain]
  rfl

/-- Witness for C4: rows 18 and 19 full on an otherwise empty board,
with a recognisable block left in row 17 to exercise the shift. -/
theorem tetris_c4_witness :
    (List.length (bottomFilled 2 .J) = BOARD_Y ∧ 18 + 1 < BOARD_Y ∧
      rowFull ((bottomFilled 2 .J).getD 18 []) = true ∧
      rowFull ((bottomFilled 2 .J).getD 19 []) = true) ∧
    check_rows 0 ⟨bottomFilled 2 .J, 0, 0, 0, 0, ""⟩ =
      ⟨emptyRow :: emptyRow :: ((bottomFilled 2 .J).take 18 ++ (bottomFilled 2 .J).drop 20),
        2, 450, 2, 0, "Double!"⟩ :=
  ⟨⟨by decide, by decide, by decide, by decide⟩,
    (tetris_c4_cascading_clears (bottomFilled 2 .J) 18 0 0 0 0 0 ""
      (by decide) (by decide) (by decide) (by decide)
      (by decide)).1⟩

/-- A game whose latch is already set ignores Hold entirely. -/
lemma apply_hold_latched {g : Game} (h : g.swapped_held = true) :
    apply_hold g = g := by
  simp [apply_hold, h]

/-- C8: the hold latch permits at most one swap per lock cycle: a
second consecutive Hold intent is a complete no-op (the whole state,
in particular `hold` and the active piece, is unchanged), the latch is
set by the first Hold, and it is reset (only) by the lock branch of
`advance_state`. -/
theorem tetris_c8_hold_once_per_lock (g : Game) :
    apply_hold (apply_hold g) = apply_hold g ∧
    (g.swapped_held = false → (apply_hold g).swapped_held = true) ∧
    (can_move_down g.fixed_board (g.shapes.getLastD default) = false →
      (advance_state g).swapped_held = false) := by
  refine ⟨?_, ?_, ?_⟩
  · by_cases hs : g.swapped_held
    · simp only [apply_hold_latched hs]
    · have hs' : g.swapped_held = false := by simpa using hs
      have h1 : (apply_hold g).swapped_held = true := by
        cases hh : g.hold with
        | none => simp [apply_hold, hs', hh]
        | some h => simp [apply_hold, hs', hh]
      exact apply_hold_latched h1
  · intro hs
    cases hh : g.hold with
    | none => simp [apply_hold, hs, hh]
    | some h => simp [apply_hold, hs, hh]
  · intro hcd
    simp only [List.getLastD_eq_getLast?] at hcd
    simp [advance_state, update_screen_state, hcd]

/-- Witness for C8 at `holdWitnessGame`. -/
theorem tetris_c8_witness :
    (holdWitnessGame.swapped_held = false ∧
      (apply_hold holdWitnessGame).swapped_held = true) ∧
    (can_move_down holdWitnessGame.fixed_board
        (holdWitnessGame.shapes.getLastD default) = false ∧
      (advance_state holdWitnessGame).swapped_held = false) :=
  ⟨⟨rfl, (tetris_c8_hold_once_per_lock holdWitnessGame).2.1 rfl⟩,
    ⟨by decide, (tetris_c8_hold_once_per_lock holdWitnessGame).2.2 (by decide)⟩⟩

lemma any_congr_mem {α : Type} {l : List α} {p q : α → Bool}
    (h : ∀ a ∈ l, p a = q a) : l.any p = l.any q := by
  induction l with
  | nil => rfl
  | cons a t ih =>
    simp only [List.any_cons]
    rw [h a (by simp), ih fun a' ha' => h a' (by simp [ha'])]

lemma pairwiseTargets_of_nodup {y x : ℤ} {cells : List (ℤ × ℤ)}
    (hnd : cells.Nodup) (hb : TargetsInBounds y x cells) :
    PairwiseTargets y x cells := by
  refine List.Pairwise.imp_of_mem ?_ hnd
  intro a a' ha ha' hne heq
  obtain ⟨h1, h2⟩ := heq
  obtain ⟨hy1, _, hx1, _⟩ := hb a ha
  obtain ⟨hy2, _, hx2, _⟩ := hb a' ha'
  apply hne
  have e1 : y + a.1 = y + a'.1 := by
    rw [← Int.toNat_of_nonneg hy1, ← Int.toNat_of_nonneg hy2, h1]
  have e2 : x + a.2 = x + a'.2 := by
    rw [← Int.toNat_of_nonneg hx1, ← Int.toNat_of_nonneg hx2, h2]
  have : a.1 = a'.1 := by omega
  have : a.2 = a'.2 := by omega
  exact Prod.ext (by omega) (by omega)

/-- The merge loop never touches board positions that are not among
its write targets. -/
lemma mergeCells_getN_outside (y x : ℤ) (k : Kind) :
    ∀ (cells : List (ℤ × ℤ)) (b : Board) (d : Bool) (p q : ℕ),
    (∀ cc ∈ cells, ¬((y + cc.1).toNat = p ∧ (x + cc.2).toNat = q)) →
    boardGetN (mergeCells y x k cells b d).1 p q = boardGetN b p q := by
  intro cells
  induction cells with
  | nil => intro b d p q _; rfl
  | cons cc rest ih =>
    intro b d p q hout
    have hrest : ∀ cc' ∈ rest, ¬((y + cc'.1).toNat = p ∧ (x + cc'.2).toNat = q) :=
      fun cc' h => hout cc' (by simp [h])
    by_cases hf : isFilled (boardGet b (y + cc.1) (x + cc.2)) = true
    · rw [show mergeCells y x k (cc :: rest) b d = mergeCells y x k rest b true from by
        simp [mergeCells, hf]]
      exact ih b true p q hrest
    · have hf' : isFilled (boardGet b (y + cc.1) (x + cc.2)) = false := by
        simpa using hf
      rw [show mergeCells y x k (cc :: rest) b d
          = mergeCells y x k rest (boardSet b (y + cc.1) (x + cc.2) (.filled k)) d from by
        simp [mergeCells, hf']]
      rw [ih _ d p q hrest]
      exact boardGetN_boardSetN_ne b _ (by
        have := hout cc (by simp)
        tauto)

/-- The merge loop's final `dead` flag: the incoming flag, or some
write target already filled on the incoming board. -/
lemma mergeCells_dead (y x : ℤ) (k : Kind) :
    ∀ (cells : List (ℤ × ℤ)) (b : Board) (d : Bool),
    PairwiseTargets y x cells →
    (mergeCells y x k cells b d).2
      = (d || cells.any fun cc => isFilled (boardGet b (y + cc.1) (x + cc.2))) := by
  intro cells
  induction cells with
  | nil => intro b d _; simp [mergeCells]
  | cons cc rest ih =>
    intro b d hpair
    obtain ⟨hhead, hrest⟩ := List.pairwise_cons.mp hpair
    by_cases hf : isFilled (boardGet b (y + cc.1) (x + cc.2)) = true
    · rw [show mergeCells y x k (cc :: rest) b d = mergeCells y x k rest b true from by
        simp [mergeCells, hf]]
      rw [ih b true hrest]
      simp [hf]
    · have hf' : isFilled (boardGet b (y + cc.1) (x + cc.2)) = false := by
        simpa using hf
      rw [show mergeCells y x k (cc :: rest) b d
          = mergeCells y x k rest (boardSet b (y + cc.1) (x + cc.2) (.filled k)) d from by
        simp [mergeCells, hf']]
      rw [ih _ d hrest]
      have hsame : ∀ cc' ∈ rest,
          isFilled (boardGet (boardSet b (y + cc.1) (x + cc.2) (.filled k))
              (y + cc'.1) (x + cc'.2))
            = isFilled (boardGet b (y + cc'.1) (x + cc'.2)) := by
        intro cc' hm
        unfold boardGet boardSet
        rw [boardGetN_boardSetN_ne b _ (by
          have := hhead cc' hm
          tauto)]
      rw [any_congr_mem hsame]
      simp [hf']

/-- On a successful (collision-free) visit, the merge loop stamps
`Filled k` at the visited target and nothing later disturbs it. -/
lemma mergeCells_getN_filled (y x : ℤ) (k : Kind) :
    ∀ (cells : List (ℤ × ℤ)) (b : Board) (d : Bool),
    BoardWF b → TargetsInBounds y x cells → PairwiseTargets y x cells →
    ∀ cc ∈ cells, isFilled (boardGet b (y + cc.1) (x + cc.2)) = false →
      boardGetN (mergeCells y x k cells b d).1 (y + cc.1).toNat (x + cc.2).toNat
        = .filled k := by
  intro cells
  induction cells with
  | nil => intro b d _ _ _ cc h; exact absurd h (List.not_mem_nil cc)
  | cons c0 rest ih =>
    intro b d hwf hb hpair cc hmem hf
    obtain ⟨hhead, hrest⟩ := List.pairwise_cons.mp hpair
    have hbrest : TargetsInBounds y x rest := fun a h => hb a (by simp [h])
    rcases List.mem_cons.mp hmem with hcc | hcc
    · subst hcc
      rw [show mergeCells y x k (cc :: rest) b d
          = mergeCells y x k rest (boardSet b (y + cc.1) (x + cc.2) (.filled k)) d from by
        simp [mergeCells, hf]]
      rw [mergeCells_getN_outside y x k rest _ d _ _ (fun a ha h => hhead a ha (by tauto))]
      obtain ⟨hy0, hy1, hx0, hx1⟩ := hb cc (by simp)
      exact boardGetN_boardSetN_self hwf (by omega) (by omega) _
    · by_cases hf0 : isFilled (boardGet b (y + c0.1) (x + c0.2)) = true
      · rw [show mergeCells y x k (c0 :: rest) b d = mergeCells y x k rest b true from by
          simp [mergeCells, hf0]]
        exact ih b true hwf hbrest hrest cc hcc hf
      · have hf0' : isFilled (boardGet b (y + c0.1) (x + c0.2)) = false := by
          simpa using hf0
        rw [show mergeCells y x k (c0 :: rest) b d
            = mergeCells y x k rest (boardSet b (y + c0.1) (x + c0.2) (.filled k)) d from by
          simp [mergeCells, hf0']]
        have hne := hhead cc hcc
        have hf2 : isFilled (boardGet (boardSet b (y + c0.1) (x + c0.2) (.filled k))
            (y + cc.1) (x + cc.2)) = false := by
          unfold boardGet boardSet
          rw [boardGetN_boardSetN_ne b _ (by tauto)]
          exact hf
        exact ih _ d (boardSetN_wf hwf _ _ _) hbrest hrest cc hcc hf2

/-- The ghost loop never changes a board cell that holds `FILL_CHAR`:
it writes only where `FILL_CHAR` is absent, and a write that could
alias a filled cell would contradict its own guard. -/
lemma ghostCells_getN_filled (gy x : ℤ) (k : Kind) :
    ∀ (cells : List (ℤ × ℤ)) (b : Board) (p q : ℕ),
    isFilled (boardGetN b p q) = true →
    boardGetN (ghostCells gy x k cells b) p q = boardGetN b p q := by
  intro cells
  induction cells with
  | nil => intro b p q _; rfl
  | cons cc rest ih =>
    intro b p q hfpq
    by_cases hf : isFilled (boardGet b (gy + cc.1) (x + cc.2)) = true
    · rw [show ghostCells gy x k (cc :: rest) b = ghostCells gy x k rest b from by
        simp [ghostCells, hf]]
      exact ih b p q hfpq
    · have hf' : isFilled (boardGet b (gy + cc.1) (x + cc.2)) = false := by
        simpa using hf
      rw [show ghostCells gy x k (cc :: rest) b
          = ghostCells gy x k rest (boardSet b (gy + cc.1) (x + cc.2) (.ghost k)) from by
        simp [ghostCells, hf']]
      have hne : ¬((gy + cc.1).toNat = p ∧ (x + cc.2).toNat = q) := by
        intro h
        obtain ⟨h1, h2⟩ := h
        rw [show isFilled (boardGet b (gy + cc.1) (x + cc.2))
            = isFilled (boardGetN b p q) from by rw [boardGet, h1, h2]] at hf'
        rw [hfpq] at hf'
        cases hf'
      have hkeep : boardGetN (boardSet b (gy + cc.1) (x + cc.2) (.ghost k)) p q
          = boardGetN b p q := boardGetN_boardSetN_ne b _ (by tauto)
      rw [ih _ p q (by rw [hkeep]; exact hfpq), hkeep]

/-- C9: `update` (merge) sets the `dead` flag iff at least one target
cell of the piece already holds a filled cell, and on the collision-free
path it writes every board-coordinate cell of the piece as filled with
the piece's own kind (the subsequent ghost-drawing loop cannot disturb
those cells). -/
theorem tetris_c9_merge_collision (fixed b : Board) (t : Tetromino)
    (hwf : BoardWF b) (hnd : t.cells.Nodup)
    (hb : TargetsInBounds t.y t.x t.cells) :
    ((update fixed b t false).2
        = t.cells.any fun cc => isFilled (boardGet b (t.y + cc.1) (t.x + cc.2))) ∧
    ((update fixed b t false).2 = false →
      ∀ cc ∈ t.cells,
        boardGet (update fixed b t false).1 (t.y + cc.1) (t.x + cc.2)
          = .filled t.shape) := by
  have hpair := pairwiseTargets_of_nodup hnd hb
  have hdead : (update fixed b t false).2
      = t.cells.any fun cc => isFilled (boardGet b (t.y + cc.1) (t.x + cc.2)) := by
    show (mergeCells t.y t.x t.shape t.cells b false).2 = _
    rw [mergeCells_dead t.y t.x t.shape t.cells b false hpair]
    simp
  refine ⟨hdead, ?_⟩
  intro hno cc hmem
  rw [hdead] at hno
  have hnofill : ∀ cc' ∈ t.cells,
      isFilled (boardGet b (t.y + cc'.1) (t.x + cc'.2)) = false := by
    intro cc' h
    have := List.any_eq_false.mp hno cc' h
    simpa using this
  have hmerged := mergeCells_getN_filled t.y t.x t.shape t.cells b false hwf hb hpair
    cc hmem (hnofill cc hmem)
  show boardGet (ghostCells (calculate_y fixed t) t.x t.shape t.cells
      (mergeCells t.y t.x t.shape t.cells b false).1) (t.y + cc.1) (t.x + cc.2)
    = Cell.filled t.shape
  unfold boardGet
  rw [ghostCells_getN_filled _ _ _ _ _ _ _ (by rw [hmerged]; rfl)]
  exact hmerged

/-- Witness for C9: the O piece locking into the two bottom-left cells
of a board that already holds a filled block elsewhere (no collision),
plus the collision case on a board with one of its targets occupied. -/
theorem tetris_c9_witness :
    (BoardWF (bottomFilled 1 .J) ∧ (pieceCells .O).Nodup ∧
      TargetsInBounds 10 0 (pieceCells .O)) ∧
    ((update emptyBoard (bottomFilled 1 .J) ⟨.O, 0, 10, pieceCells .O⟩ false).2
      = ((pieceCells .O).any fun cc =>
          isFilled (boardGet (bottomFilled 1 .J) (10 + cc.1) (0 + cc.2)))) ∧
    boardGet (update emptyBoard (bottomFilled 1 .J) ⟨.O, 0, 10, pieceCells .O⟩ false).1
        (10 + 0) (0 + 1) = .filled .O := by
  have h := tetris_c9_merge_collision emptyBoard (bottomFilled 1 .J)
    ⟨.O, 0, 10, pieceCells .O⟩ (by decide) (by decide) (by decide)
  refine ⟨⟨by decide, by decide, by decide⟩, h.1, ?_⟩
  have hz : (update emptyBoard (bottomFilled 1 .J) ⟨.O, 0, 10, pieceCells .O⟩ false).2
      = false := by
    rw [h.1]
    decide
  exact h.2 hz (0, 1) (by decide)

/-- Filled-status of the board after the merge loop: a cell is filled
iff it was filled before or it is one of the piece's targets. -/
lemma mergeCells_isFilled (y x : ℤ) (k : Kind) :
    ∀ (cells : List (ℤ × ℤ)) (b : Board) (d : Bool),
    BoardWF b → TargetsInBounds y x cells → PairwiseTargets y x cells →
    ∀ r c : ℤ, 0 ≤ r → r < (BOARD_Y : ℤ) → 0 ≤ c → c < (BOARD_X : ℤ) →
      isFilled (boardGet (mergeCells y x k cells b d).1 r c)
        = (isFilled (boardGet b r c) || decide ((r - y, c - x) ∈ cells)) := by
  intro cells
  induction cells with
  | nil => intro b d _ _ _ r c _ _ _ _; simp [mergeCells]
  | cons cc rest ih =>
    intro b d hwf hb hpair r c hr0 hr1 hc0 hc1
    obtain ⟨hhead, hrest⟩ := List.pairwise_cons.mp hpair
    have hbrest : TargetsInBounds y x rest := fun a h => hb a (by simp [h])
    obtain ⟨hty0, hty1, htx0, htx1⟩ := hb cc (by simp)
    by_cases hmemc : (r - y, c - x) = cc
    · -- the queried cell is the head target
      have hry : r = y + cc.1 := by
        have := congrArg Prod.fst hmemc
        simp at this
        omega
      have hcx : c = x + cc.2 := by
        have := congrArg Prod.snd hmemc
        simp at this
        omega
      by_cases hf : isFilled (boardGet b (y + cc.1) (x + cc.2)) = true
      · rw [show mergeCells y x k (cc :: rest) b d = mergeCells y x k rest b true from by
          simp [mergeCells, hf]]
        rw [ih b true hwf hbrest hrest r c hr0 hr1 hc0 hc1]
        have hA : isFilled (boardGet b r c) = true := by
          rw [hry, hcx]
          exact hf
        simp [hA]
      · have hf' : isFilled (boardGet b (y + cc.1) (x + cc.2)) = false := by simpa using hf
        rw [show mergeCells y x k (cc :: rest) b d
            = mergeCells y x k rest (boardSet b (y + cc.1) (x + cc.2) (.filled k)) d from by
          simp [mergeCells, hf']]
        rw [ih (boardSet b (y + cc.1) (x + cc.2) (.filled k)) d
          (boardSetN_wf hwf _ _ _) hbrest hrest r c hr0 hr1 hc0 hc1]
        have hself : isFilled (boardGet (boardSet b (y + cc.1) (x + cc.2) (.filled k)) r c)
            = true := by
          rw [hry, hcx]
          unfold boardGet boardSet
          rw [boardGetN_boardSetN_self hwf (by omega) (by omega)]
          rfl
        rw [hself]
        simp [hmemc]
    · -- the queried cell is not the head target
      have hne : ¬((y + cc.1).toNat = r.toNat ∧ (x + cc.2).toNat = c.toNat) := by
        intro h
        obtain ⟨h1, h2⟩ := h
        apply hmemc
        have e1 : y + cc.1 = r := by
          rw [← Int.toNat_of_nonneg hty0, ← Int.toNat_of_nonneg hr0, h1]
        have e2 : x + cc.2 = c := by
          rw [← Int.toNat_of_nonneg htx0, ← Int.toNat_of_nonneg hc0, h2]
        refine Prod.ext ?_ ?_ <;> simp <;> omega
      have hmem' : ((r - y, c - x) ∈ cc :: rest) ↔ ((r - y, c - x) ∈ rest) := by
        simp [List.mem_cons, hmemc]
      by_cases hf : isFilled (boardGet b (y + cc.1) (x + cc.2)) = true
      · rw [show mergeCells y x k (cc :: rest) b d = mergeCells y x k rest b true from by
          simp [mergeCells, hf]]
        rw [ih b true hwf hbrest hrest r c hr0 hr1 hc0 hc1]
        simp only [decide_eq_true_eq] at hmem' ⊢
        rw [show decide ((r - y, c - x) ∈ cc :: rest) = decide ((r - y, c - x) ∈ rest) from by
          simp [hmemc]]
      · have hf' : isFilled (boardGet b (y + cc.1) (x + cc.2)) = false := by simpa using hf
        rw [show mergeCells y x k (cc :: rest) b d
            = mergeCells y x k rest (boardSet b (y + cc.1) (x + cc.2) (.filled k)) d from by
          simp [mergeCells, hf']]
        rw [ih (boardSet b (y + cc.1) (x + cc.2) (.filled k)) d
          (boardSetN_wf hwf _ _ _) hbrest hrest r c hr0 hr1 hc0 hc1]
        have hkeep : boardGet (boardSet b (y + cc.1) (x + cc.2) (.filled k)) r c
            = boardGet b r c := by
          unfold boardGet boardSet
          exact boardGetN_boardSetN_ne b _ (by tauto)
        rw [hkeep, show decide ((r - y, c - x) ∈ cc :: rest)
            = decide ((r - y, c - x) ∈ rest) from by simp [hmemc]]

/-- The ghost loop does not change the filled-status of any board
cell: it writes only `ghost` cells (never filled) and only where no
`FILL_CHAR` is present. -/
lemma ghostCells_isFilled (gy x : ℤ) (k : Kind) :
    ∀ (cells : List (ℤ × ℤ)) (b : Board) (p q : ℕ),
    isFilled (boardGetN (ghostCells gy x k cells b) p q)
      = isFilled (boardGetN b p q) := by
  intro cells
  induction cells with
  | nil => intro b p q; rfl
  | cons cc rest ih =>
    intro b p q
    by_cases hf : isFilled (boardGet b (gy + cc.1) (x + cc.2)) = true
    · rw [show ghostCells gy x k (cc :: rest) b = ghostCells gy x k rest b from by
        simp [ghostCells, hf]]
      exact ih b p q
    · have hf' : isFilled (boardGet b (gy + cc.1) (x + cc.2)) = false := by simpa using hf
      rw [show ghostCells gy x k (cc :: rest) b
          = ghostCells gy x k rest (boardSet b (gy + cc.1) (x + cc.2) (.ghost k)) from by
        simp [ghostCells, hf']]
      rw [ih _ p q]
      by_cases he : (gy + cc.1).toNat = p ∧ (x + cc.2).toNat = q
      · obtain ⟨h1, h2⟩ := he
        have hb' : isFilled (boardGetN b p q) = false := by
          rw [← h1, ← h2]
          exact hf'
        rw [hb']
        have hgoal : boardGetN (boardSet b (gy + cc.1) (x + cc.2) (.ghost k)) p q
            = boardGetN (boardSetN b (gy + cc.1).toNat (x + cc.2).toNat (.ghost k))
              (gy + cc.1).toNat (x + cc.2).toNat := by
          unfold boardSet
          rw [h1, h2]
        rw [hgoal]
        rcases boardGetN_boardSetN_self_or b (gy + cc.1).toNat (x + cc.2).toNat
            (.ghost k) with hv | hv
        · rw [hv]
          rfl
        · rw [hv, h1, h2]
          exact hb'
      · rw [show boardGetN (boardSet b (gy + cc.1) (x + cc.2) (.ghost k)) p q
            = boardGetN b p q from boardGetN_boardSetN_ne b _ (by tauto)]

/-- Filled-status of the display board produced by `update`: settled
cells, plus the active piece's own cells. -/
lemma update_isFilled (fixed b : Board) (t : Tetromino) (d : Bool)
    (hwf : BoardWF b) (hb : TargetsInBounds t.y t.x t.cells)
    (hnd : t.cells.Nodup) :
    ∀ r c : ℤ, 0 ≤ r → r < (BOARD_Y : ℤ) → 0 ≤ c → c < (BOARD_X : ℤ) →
      isFilled (boardGet (update fixed b t d).1 r c)
        = (isFilled (boardGet b r c) || decide ((r - t.y, c - t.x) ∈ t.cells)) := by
  intro r c hr0 hr1 hc0 hc1
  have hpair := pairwiseTargets_of_nodup hnd hb
  show isFilled (boardGet (ghostCells (calculate_y fixed t) t.x t.shape t.cells
      (mergeCells t.y t.x t.shape t.cells b d).1) r c) = _
  unfold boardGet
  rw [ghostCells_isFilled]
  rw [show isFilled (boardGetN (mergeCells t.y t.x t.shape t.cells b d).1 r.toNat c.toNat)
      = isFilled (boardGet (mergeCells t.y t.x t.shape t.cells b d).1 r c) from rfl]
  exact mergeCells_isFilled t.y t.x t.shape t.cells b d hwf hb hpair r c hr0 hr1 hc0 hc1

/-- Two counts with pointwise-implied predicates agree exactly when the
implication is an equivalence on every element. -/
lemma countP_eq_countP_iff {α : Type} :
    ∀ {l : List α} {p q : α → Bool},
    (∀ a ∈ l, q a = true → p a = true) →
    (l.countP p = l.countP q ↔ ∀ a ∈ l, p a = true → q a = true) := by
  intro l
  induction l with
  | nil => intro p q _; simp
  | cons a t ih =>
    intro p q himp
    have himpt : ∀ a' ∈ t, q a' = true → p a' = true :=
      fun a' h => himp a' (by simp [h])
    by_cases hqa : q a = true
    · have hpa : p a = true := himp a (by simp) hqa
      rw [List.countP_cons_of_pos p t hpa, List.countP_cons_of_pos q t hqa]
      rw [Nat.add_right_cancel_iff, ih himpt]
      constructor
      · intro h a' ha'
        rcases List.mem_cons.mp ha' with h' | h'
        · subst h'
          intro _
          exact hqa
        · exact h a' h'
      · intro h a' ha'
        exact h a' (by simp [ha'])
    · have hqa' : q a = false := by simpa using hqa
      rw [List.countP_cons_of_neg q t (by simp [hqa'])]
      by_cases hpa : p a = true
      · rw [List.countP_cons_of_pos p t hpa]
        have hle : t.countP q ≤ t.countP p := List.countP_mono_left himpt
        constructor
        · intro h
          exfalso
          have : t.countP p + 1 ≤ t.countP p := by omega
          omega
        · intro h
          exfalso
          have := h a (by simp) hpa
          rw [this] at hqa'
          cases hqa'
      · have hpa' : p a = false := by simpa using hpa
        rw [List.countP_cons_of_neg p t (by simp [hpa'])]
        rw [ih himpt]
        constructor
        · intro h a' ha'
          rcases List.mem_cons.mp ha' with h' | h'
          · subst h'
            intro hp
            rw [hp] at hpa'
            cases hpa'
          · exact h a' h'
        · intro h a' ha'
          exact h a' (by simp [ha'])

/-- Counting `len(set(A) & set(B))` from either side agrees, for
duplicate-free lists. -/
lemma overlapCount_comm {l₁ l₂ : List (ℤ × ℤ)} (h₁ : l₁.Nodup) (h₂ : l₂.Nodup) :
    overlapCount l₁ l₂ = l₂.countP fun a => decide (a ∈ l₁) := by
  unfold overlapCount
  rw [List.countP_eq_length_filter]
  have hf₁ : (l₁.filter fun c => decide (c ∈ l₂)).Nodup := h₁.filter _
  have hf₂ : (l₂.filter fun c => decide (c ∈ l₁)).Nodup := h₂.filter _
  rw [← List.toFinset_card_of_nodup hf₁, ← List.toFinset_card_of_nodup hf₂]
  congr 1
  ext a
  simp only [List.mem_toFinset, List.mem_filter, decide_eq_true_eq]
  tauto

/-- The candidate (rotated) cell list of a duplicate-free piece is
duplicate-free. -/
lemma get_rotated_clockwise_nodup (t : Tetromino) (h : t.cells.Nodup) :
    (get_rotated_clockwise t).Nodup := by
  rw [get_rotated_clockwise, get_rotated_clockwise_cells_eq]
  refine h.map ?_
  rintro ⟨a1, a2⟩ ⟨b1, b2⟩ hab
  simp only [Prod.mk.injEq] at hab
  refine Prod.ext ?_ ?_ <;> simp <;> omega

lemma countP_not_eq {α : Type} (l : List α) (p : α → Bool) :
    (l.countP fun a => !p a) = l.length - l.countP p := by
  induction l with
  | nil => rfl
  | cons a t ih =>
    have hle : t.countP p ≤ t.length := List.countP_le_length p
    cases hpa : p a
    · rw [List.countP_cons_of_pos _ t (by simp [hpa]),
        List.countP_cons_of_neg p t (by simp [hpa]), ih, List.length_cons]
      omega
    · rw [List.countP_cons_of_neg _ t (by simp [hpa]),
        List.countP_cons_of_pos p t (by simp [hpa]), ih, List.length_cons]
      omega

lemma can_rotate_clockwise_oob {board : Board} {t : Tetromino}
    (h : ((get_rotated_clockwise t).any fun i =>
      decide (t.x + i.2 < 0) || decide ((BOARD_X : ℤ) ≤ t.x + i.2)) = true) :
    can_rotate_clockwise board t = false := by
  simp only [can_rotate_clockwise]
  rw [if_pos h]

lemma can_rotate_clockwise_inb {board : Board} {t : Tetromino}
    (h : ((get_rotated_clockwise t).any fun i =>
      decide (t.x + i.2 < 0) || decide ((BOARD_X : ℤ) ≤ t.x + i.2)) = false) :
    can_rotate_clockwise board t
      = (((get_rotated_clockwise t).countP fun i =>
          !isFilled (boardGet board (t.y + i.1) (t.x + i.2)))
        == (get_rotated_clockwise t).length
            - overlapCount t.cells (get_rotated_clockwise t)) := by
  simp only [can_rotate_clockwise]
  rw [if_neg (by simp [h])]

/-- C7: on the display board drawn by `update`, rotation is accepted
exactly under the specification's rule — every candidate cell within
horizontal bounds and every candidate cell free in the settled grid or
occupied by the piece's own current cells (counted form) — and a
rejected rotation leaves the piece completely unchanged: no wall-kick
at any shifted origin is ever attempted. -/
theorem tetris_c7_rotation_legality (fixed : Board) (t : Tetromino) (d : Bool)
    (hwf : BoardWF fixed)
    (hnd : t.cells.Nodup)
    (hb : TargetsInBounds t.y t.x t.cells)
    (hv : ∀ i ∈ get_rotated_clockwise t,
      0 ≤ t.y + i.1 ∧ t.y + i.1 < (BOARD_Y : ℤ)) :
    can_rotate_clockwise (update fixed fixed t d).1 t = spec_rotation_legal fixed t ∧
    (can_rotate_clockwise (update fixed fixed t d).1 t = false →
      apply_rotate_cw (update fixed fixed t d).1 t = t) := by
  have hsecond : can_rotate_clockwise (update fixed fixed t d).1 t = false →
      apply_rotate_cw (update fixed fixed t d).1 t = t := by
    intro h
    unfold apply_rotate_cw
    rw [if_neg (by simp [h])]
  refine ⟨?_, hsecond⟩
  by_cases hoob : ((get_rotated_clockwise t).any fun i =>
      decide (t.x + i.2 < 0) || decide ((BOARD_X : ℤ) ≤ t.x + i.2)) = true
  · rw [can_rotate_clockwise_oob hoob]
    obtain ⟨i, hi, hcond⟩ := List.any_eq_true.mp hoob
    simp only [Bool.or_eq_true, decide_eq_true_eq] at hcond
    have hall : ((get_rotated_clockwise t).all fun i =>
        decide (0 ≤ t.x + i.2) && decide (t.x + i.2 < (BOARD_X : ℤ))) = false := by
      rw [List.all_eq_false]
      exact ⟨i, hi, by simp; omega⟩
    simp only [spec_rotation_legal]
    rw [hall, Bool.false_and]
  · have hoob' : ((get_rotated_clockwise t).any fun i =>
        decide (t.x + i.2 < 0) || decide ((BOARD_X : ℤ) ≤ t.x + i.2)) = false := by
      simpa using hoob
    have hh : ∀ i ∈ get_rotated_clockwise t,
        0 ≤ t.x + i.2 ∧ t.x + i.2 < (BOARD_X : ℤ) := by
      intro i hi
      have := List.any_eq_false.mp hoob' i hi
      simp only [Bool.or_eq_true, decide_eq_true_eq] at this
      push_neg at this
      omega
    have hall : ((get_rotated_clockwise t).all fun i =>
        decide (0 ≤ t.x + i.2) && decide (t.x + i.2 < (BOARD_X : ℤ))) = true := by
      rw [List.all_eq_true]
      intro i hi
      have := hh i hi
      simp
      omega
    rw [can_rotate_clockwise_inb hoob']
    simp only [spec_rotation_legal]
    rw [hall, Bool.true_and]
    -- abbreviations
    have hndrot := get_rotated_clockwise_nodup t hnd
    have hdisp : ∀ i ∈ get_rotated_clockwise t,
        isFilled (boardGet (update fixed fixed t d).1 (t.y + i.1) (t.x + i.2))
          = (isFilled (boardGet fixed (t.y + i.1) (t.x + i.2))
            || decide (i ∈ t.cells)) := by
      intro i hi
      obtain ⟨hy0, hy1⟩ := hv i hi
      obtain ⟨hx0, hx1⟩ := hh i hi
      have hpair : ((t.y + i.1 - t.y, t.x + i.2 - t.x) : ℤ × ℤ) = i := by
        refine Prod.ext ?_ ?_ <;> simp
      rw [update_isFilled fixed fixed t d hwf hb hnd _ _ hy0 hy1 hx0 hx1, hpair]
    have himpl : ∀ i ∈ get_rotated_clockwise t,
        decide (i ∈ t.cells) = true →
          isFilled (boardGet (update fixed fixed t d).1 (t.y + i.1) (t.x + i.2))
            = true := by
      intro i hi hq
      rw [hdisp i hi, hq, Bool.or_true]
    have hcount1 : ((get_rotated_clockwise t).countP fun i =>
          !isFilled (boardGet (update fixed fixed t d).1 (t.y + i.1) (t.x + i.2)))
        = (get_rotated_clockwise t).length
          - ((get_rotated_clockwise t).countP fun i =>
              isFilled (boardGet (update fixed fixed t d).1 (t.y + i.1) (t.x + i.2))) :=
      countP_not_eq _ _
    have hoverlap : overlapCount t.cells (get_rotated_clockwise t)
        = (get_rotated_clockwise t).countP fun i => decide (i ∈ t.cells) :=
      overlapCount_comm hnd hndrot
    have hle1 : ((get_rotated_clockwise t).countP fun i => decide (i ∈ t.cells))
        ≤ (get_rotated_clockwise t).countP fun i =>
            isFilled (boardGet (update fixed fixed t d).1 (t.y + i.1) (t.x + i.2)) :=
      List.countP_mono_left himpl
    have hle2 : ((get_rotated_clockwise t).countP fun i =>
          isFilled (boardGet (update fixed fixed t d).1 (t.y + i.1) (t.x + i.2)))
        ≤ (get_rotated_clockwise t).length := List.countP_le_length _
    have hle3 : ((get_rotated_clockwise t).countP fun i => decide (i ∈ t.cells))
        ≤ (get_rotated_clockwise t).length := List.countP_le_length _
    have hiff1 := countP_eq_countP_iff himpl
    rw [Bool.eq_iff_iff]
    simp only [beq_iff_eq]
    rw [hcount1, hoverlap]
    constructor
    · intro hnum
      have heqc : ((get_rotated_clockwise t).countP fun i =>
            isFilled (boardGet (update fixed fixed t d).1 (t.y + i.1) (t.x + i.2)))
          = (get_rotated_clockwise t).countP fun i => decide (i ∈ t.cells) := by
        omega
      have hpt := hiff1.mp heqc
      rw [List.countP_eq_length]
      intro i hi
      have h3 := hpt i hi
      rw [hdisp i hi] at h3
      cases hpf : isFilled (boardGet fixed (t.y + i.1) (t.x + i.2)) <;>
        cases hq : decide (i ∈ t.cells) <;> simp_all
    · intro hc
      rw [List.countP_eq_length] at hc
      have hpt : ∀ i ∈ get_rotated_clockwise t,
          isFilled (boardGet (update fixed fixed t d).1 (t.y + i.1) (t.x + i.2)) = true →
            decide (i ∈ t.cells) = true := by
        intro i hi hp
        have h3 := hc i hi
        rw [hdisp i hi] at hp
        cases hpf : isFilled (boardGet fixed (t.y + i.1) (t.x + i.2)) <;>
          cases hq : decide (i ∈ t.cells) <;> simp_all
      have heqc := hiff1.mpr hpt
      omega

/-- Witness for C7: the T piece at spawn on an empty board. -/
theorem tetris_c7_witness :
    (BoardWF emptyBoard ∧ (mkTetromino Kind.T 4).cells.Nodup ∧
      TargetsInBounds (mkTetromino Kind.T 4).y (mkTetromino Kind.T 4).x
        (mkTetromino Kind.T 4).cells ∧
      ∀ i ∈ get_rotated_clockwise (mkTetromino Kind.T 4),
        0 ≤ (mkTetromino Kind.T 4).y + i.1 ∧
          (mkTetromino Kind.T 4).y + i.1 < (BOARD_Y : ℤ)) ∧
    can_rotate_clockwise (update emptyBoard emptyBoard (mkTetromino Kind.T 4) false).1
        (mkTetromino Kind.T 4)
      = spec_rotation_legal emptyBoard (mkTetromino Kind.T 4) :=
  ⟨⟨by decide, by decide, by decide, by
      simp only [get_rotated_clockwise, get_rotated_clockwise_cells_eq]
      decide⟩,
    (tetris_c7_rotation_legality emptyBoard (mkTetromino Kind.T 4) false
      (by decide) (by decide) (by decide) (by
        simp only [get_rotated_clockwise, get_rotated_clockwise_cells_eq]
        decide)).1⟩

end TetrisPy
